import Mathlib

set_option maxRecDepth 100000

/-!
Verification of `simple-pow-chain` (a toy proof-of-work blockchain written in
Rust) against its natural-language specification.  The development shallowly
embeds the relevant source files (`block.rs`, `blockchain.rs`, `transaction.rs`,
`node.rs`, `seed.rs`) as executable Lean definitions: SHA-256 is implemented
concretely over `Nat` arithmetic (words are naturals reduced mod 2^32), strings
are Lean `String`s, the unbounded mining loop is given explicit fuel, and the
concurrent re-checks inside the node's mining routine are modelled by passing
the chain states observed at each lock acquisition as explicit parameters.
-/

namespace PowChain

/-! ### SHA-256 over `Nat` (bytes are naturals `< 256`, words naturals `< 2^32`) -/

/-- Modulus for 32-bit words. -/
def w32 : Nat := 4294967296

/-- Rotate a 32-bit word right by `n` bits. -/
def rotr32 (x n : Nat) : Nat :=
  ((x >>> n) ||| (x <<< (32 - n))) % w32

def shaCh (x y z : Nat) : Nat := (x &&& y) ^^^ ((x ^^^ 4294967295) &&& z)

def shaMaj (x y z : Nat) : Nat := (x &&& y) ^^^ (x &&& z) ^^^ (y &&& z)

def bsig0 (x : Nat) : Nat := rotr32 x 2 ^^^ rotr32 x 13 ^^^ rotr32 x 22

def bsig1 (x : Nat) : Nat := rotr32 x 6 ^^^ rotr32 x 11 ^^^ rotr32 x 25

def ssig0 (x : Nat) : Nat := rotr32 x 7 ^^^ rotr32 x 18 ^^^ (x >>> 3)

def ssig1 (x : Nat) : Nat := rotr32 x 17 ^^^ rotr32 x 19 ^^^ (x >>> 10)

/-- The 64 SHA-256 round constants. -/
def shaK : List Nat :=
  [1116352408, 1899447441, 3049323471, 3921009573, 961987163,
   1508970993, 2453635748, 2870763221, 3624381080, 310598401,
   607225278, 1426881987, 1925078388, 2162078206, 2614888103,
   3248222580, 3835390401, 4022224774, 264347078, 604807628,
   770255983, 1249150122, 1555081692, 1996064986, 2554220882,
   2821834349, 2952996808, 3210313671, 3336571891, 3584528711,
   113926993, 338241895, 666307205, 773529912, 1294757372,
   1396182291, 1695183700, 1986661051, 2177026350, 2456956037,
   2730485921, 2820302411, 3259730800, 3345764771, 3516065817,
   3600352804, 4094571909, 275423344, 430227734, 506948616,
   659060556, 883997877, 958139571, 1322822218, 1537002063,
   1747873779, 1955562222, 2024104815, 2227730452, 2361852424,
   2428436474, 2756734187, 3204031479, 3329325298]

/-- Initial SHA-256 hash values. -/
def shaH0 : List Nat :=
  [1779033703, 3144134277, 1013904242, 2773480762,
   1359893119, 2600822924, 528734635, 1541459225]

/-- Big-endian length padding: message bytes, `0x80`, zero bytes, 8-byte length. -/
def shaPad (msg : List Nat) : List Nat :=
  let len := msg.length
  let zcount := (64 + 55 - len % 64) % 64
  let bitLen := 8 * len
  msg ++ [0x80] ++ List.replicate zcount 0 ++
    [bitLen >>> 56 % 256, bitLen >>> 48 % 256, bitLen >>> 40 % 256,
     bitLen >>> 32 % 256, bitLen >>> 24 % 256, bitLen >>> 16 % 256,
     bitLen >>> 8 % 256, bitLen % 256]

/-- Split a byte list into 64-byte chunks (the list's length is the fuel). -/
def chunksAux : Nat → List Nat → List (List Nat)
  | 0, _ => []
  | _, [] => []
  | n + 1, l => l.take 64 :: chunksAux n (l.drop 64)

def chunks (l : List Nat) : List (List Nat) := chunksAux l.length l

/-- Combine bytes into big-endian 32-bit words. -/
def toWords : List Nat → List Nat
  | b0 :: b1 :: b2 :: b3 :: rest =>
    (((b0 * 256 + b1) * 256 + b2) * 256 + b3) :: toWords rest
  | _ => []

/-- Message-schedule extension; `acc` holds the words produced so far, reversed. -/
def schedExt (acc : List Nat) : Nat → List Nat
  | 0 => acc.reverse
  | n + 1 =>
    let x2 := acc.getD 1 0
    let x7 := acc.getD 6 0
    let x15 := acc.getD 14 0
    let x16 := acc.getD 15 0
    let w := (ssig1 x2 + x7 + ssig0 x15 + x16) % w32
    schedExt (w :: acc) n

/-- One SHA-256 round; the state is the eight working variables. -/
def shaRound (s : List Nat) (kw : Nat × Nat) : List Nat :=
  match s with
  | [a, b, c, d, e, f, g, h] =>
    let t1 := (h + bsig1 e + shaCh e f g + kw.1 + kw.2) % w32
    let t2 := (bsig0 a + shaMaj a b c) % w32
    [(t1 + t2) % w32, a, b, c, (d + t1) % w32, e, f, g]
  | _ => s

/-- Compress one 64-byte chunk into the running hash state. -/
def shaCompress (st : List Nat) (chunk : List Nat) : List Nat :=
  let w16 := toWords chunk
  let w := schedExt w16.reverse 48
  let fin := (shaK.zip w).foldl shaRound st
  (st.zip fin).map (fun p => (p.1 + p.2) % w32)

/-- SHA-256 digest of a byte list, as 32 bytes. -/
def sha256 (msg : List Nat) : List Nat :=
  let final := (chunks (shaPad msg)).foldl shaCompress shaH0
  final.foldr (fun wd acc =>
    (wd >>> 24 % 256) :: (wd >>> 16 % 256) :: (wd >>> 8 % 256) :: (wd % 256) :: acc) []

/-- Lowercase hex digit for a nibble. -/
def hexChar (n : Nat) : Char :=
  if n < 10 then Char.ofNat (48 + n) else Char.ofNat (87 + n)

/-- Lowercase hex encoding of a byte list (models the Rust `hex` crate). -/
def hexEncode (bs : List Nat) : String :=
  String.mk (bs.foldr (fun b acc => hexChar (b / 16) :: hexChar (b % 16) :: acc) [])

/-- UTF-8 encoding of one character, as bytes. -/
def utf8Char (c : Char) : List Nat :=
  let n := c.toNat
  if n < 0x80 then [n]
  else if n < 0x800 then
    [0xc0 ||| (n >>> 6), 0x80 ||| (n &&& 0x3f)]
  else if n < 0x10000 then
    [0xe0 ||| (n >>> 12), 0x80 ||| ((n >>> 6) &&& 0x3f), 0x80 ||| (n &&& 0x3f)]
  else
    [0xf0 ||| (n >>> 18), 0x80 ||| ((n >>> 12) &&& 0x3f),
     0x80 ||| ((n >>> 6) &&& 0x3f), 0x80 ||| (n &&& 0x3f)]

/-- UTF-8 bytes of a string (Rust `str::as_bytes`). -/
def utf8Bytes (s : String) : List Nat :=
  (s.data.map utf8Char).flatten

/-- Hex-encoded SHA-256 of a string's UTF-8 bytes; models
`hex::encode(Sha256::digest(data.as_bytes()))`. -/
def sha256hex (s : String) : String :=
  hexEncode (sha256 (utf8Bytes s))

/-! ### Transactions (`src/transaction.rs`) -/

/-- A transaction transferring coins between addresses (`transaction.rs`).
The Rust fields `from` and `to` are rendered `from_` and `to_` because both are Lean keywords. -/
structure Transaction where
  from_ : String
  to_ : String
  amount : Nat
  signature : Option String
  public_key : Option String
deriving DecidableEq, Repr

namespace Transaction

/-- Create a new unsigned transaction (`Transaction::new`). -/
def new (from_ to_ : String) (amount : Nat) : Transaction :=
  ⟨from_, to_, amount, none, none⟩

/-- Create a coinbase (mining reward) transaction (`Transaction::coinbase`). -/
def coinbase (to_ : String) (amount : Nat) : Transaction :=
  ⟨"coinbase", to_, amount, none, none⟩

/-- Content hash of the transaction (`Transaction::hash`):
`SHA256(format!("{}{}{}", from, to, amount))`, hex-encoded. -/
def hash (t : Transaction) : String :=
  sha256hex (t.from_ ++ t.to_ ++ toString t.amount)

end Transaction

/-! ### Blocks (`src/block.rs`) -/

/-- A block in the blockchain (`block.rs`).  `timestamp` is taken as an
explicit parameter wherever Rust reads the system clock. -/
structure Block where
  index : Nat
  timestamp : Nat
  prev_hash : String
  hash : String
  nonce : Nat
  difficulty : Nat
  transactions : List Transaction
deriving DecidableEq, Repr

/-- The proof-of-work target `"0".repeat(difficulty)`. -/
def zeros (n : Nat) : String :=
  String.mk (List.replicate n '0')

/-- Rust's `str::starts_with`: `pre` is a prefix of `s`.  (Stated on the
character data so that it is structurally recursive and kernel-computable;
for valid UTF-8 strings the byte-prefix and character-prefix relations
coincide.) -/
def strStartsWith (s pre : String) : Bool :=
  pre.data.isPrefixOf s.data

namespace Block

/-- SHA-256 hash of the block (`Block::calculate_hash`):
the preimage is `format!("{}{}{}{}{}", index, timestamp, prev_hash, nonce, tx_data)`
where `tx_data` joins the content hashes of the transactions. -/
def calculate_hash (b : Block) : String :=
  let tx_data := String.join (b.transactions.map Transaction.hash)
  sha256hex (toString b.index ++ toString b.timestamp ++ b.prev_hash ++
    toString b.nonce ++ tx_data)

/-- Create a new (not yet mined) block (`Block::new`); the clock read is the
`timestamp` parameter. -/
def new (index : Nat) (prev_hash : String) (transactions : List Transaction)
    (difficulty : Nat) (timestamp : Nat) : Block :=
  let b : Block := ⟨index, timestamp, prev_hash, "", 0, difficulty, transactions⟩
  { b with hash := b.calculate_hash }

/-- The body of the unbounded `loop` in `Block::mine`, with explicit fuel:
each iteration recomputes `hash`, stops when it meets `target`, and otherwise
increments `nonce`.  `none` models the Rust loop never terminating. -/
def mineAux (target : String) : Nat → Block → Option Block
  | 0, _ => none
  | fuel + 1, b =>
    if strStartsWith (Block.calculate_hash b) target then
      some { b with hash := b.calculate_hash }
    else
      mineAux target fuel { b with hash := b.calculate_hash, nonce := b.nonce + 1 }

/-- Mine the block by finding a valid nonce (`Block::mine`). -/
def mine (b : Block) (fuel : Nat) : Option Block :=
  mineAux (zeros b.difficulty) fuel b

/-- Verify the block's proof of work (`Block::is_valid_pow`). -/
def is_valid_pow (b : Block) : Bool :=
  b.hash == b.calculate_hash && strStartsWith b.hash (zeros b.difficulty)

/-- Create the genesis block (`Block::genesis`). -/
def genesis (difficulty timestamp fuel : Nat) : Option Block :=
  (Block.new 0 "0" [] difficulty timestamp).mine fuel

end Block

/-! ### The chain (`src/blockchain.rs`) -/

/-- The blockchain (`blockchain.rs`). -/
structure Blockchain where
  chain : List Block
  difficulty : Nat
deriving DecidableEq, Repr

namespace Blockchain

/-- Create a new blockchain with a mined genesis block (`Blockchain::new`). -/
def new (difficulty timestamp fuel : Nat) : Option Blockchain :=
  (Block.genesis difficulty timestamp fuel).map fun g => ⟨[g], difficulty⟩

/-- Create an empty blockchain (`Blockchain::empty`). -/
def empty (difficulty : Nat) : Blockchain :=
  ⟨[], difficulty⟩

/-- The latest block (`Blockchain::last_block`). -/
def last_block (bc : Blockchain) : Option Block :=
  bc.chain.getLast?

/-- Mine and append a block of the given transactions (`Blockchain::add_block`);
returns `none` when the mining loop does not terminate within `fuel`. -/
def add_block (bc : Blockchain) (transactions : List Transaction)
    (timestamp fuel : Nat) : Option Blockchain :=
  let p := match bc.last_block with
    | some b => (b.index + 1, b.hash)
    | none => (0, "0")
  let b0 := Block.new p.1 p.2 transactions bc.difficulty timestamp
  (b0.mine fuel).map fun b => { bc with chain := bc.chain ++ [b] }

/-- Check whether a received block extends the current tail
(`Blockchain::is_valid_new_block`). -/
def is_valid_new_block (bc : Blockchain) (block : Block) : Bool :=
  let p := match bc.last_block with
    | some last => (last.index + 1, last.hash)
    | none => (0, "0")
  block.index == p.1 && block.prev_hash == p.2 && block.is_valid_pow

/-- Append an already mined block after validation
(`Blockchain::add_mined_block`); returns the updated chain and the Rust
function's boolean result. -/
def add_mined_block (bc : Blockchain) (block : Block) : Blockchain × Bool :=
  if bc.is_valid_new_block block then ({ bc with chain := bc.chain ++ [block] }, true)
  else (bc, false)

/-- Pairwise checks of the loop in `Blockchain::is_valid`: index continuity,
hash chaining and proof-of-work of every block after the first. -/
def chainOk : Block → List Block → Bool
  | _, [] => true
  | prev, b :: rest =>
    b.index == prev.index + 1 && b.prev_hash == prev.hash &&
      b.is_valid_pow && chainOk b rest

/-- Validate the entire blockchain (`Blockchain::is_valid`). -/
def is_valid (bc : Blockchain) : Bool :=
  match bc.chain with
  | [] => false
  | g :: rest =>
    g.index == 0 && g.prev_hash == "0" && g.is_valid_pow && chainOk g rest

/-- Chain length (`Blockchain::len`). -/
def len (bc : Blockchain) : Nat := bc.chain.length

end Blockchain

/-! ### The node runtime (`src/node.rs`)

`node.rs` manipulates the chain behind an `RwLock`; here every function is
sequentialized, and where the Rust code re-reads the shared chain after a
potentially concurrent interval (the re-checks in `mine_block`) the state
observed at that point is an explicit parameter. -/

/-- The network message variants used by `node.rs`. -/
inductive NetworkMessage where
  | NewBlock : Block → NetworkMessage
  | NewTransaction : Transaction → NetworkMessage
  | RequestBlockchain : NetworkMessage
  | ResponseBlockchain : Blockchain → NetworkMessage
deriving DecidableEq, Repr

/-- Per-block loop body of the free function `validate_blockchain` in
`node.rs`: hash integrity, proof-of-work, and (for non-genesis positions)
prev-hash match and index continuity. -/
def validateFrom : Block → List Block → Bool
  | _, [] => true
  | prev, b :: rest =>
    b.hash == b.calculate_hash && strStartsWith b.hash (zeros b.difficulty) &&
      b.prev_hash == prev.hash && b.index == prev.index + 1 && validateFrom b rest

/-- Validate a received blockchain (free function `validate_blockchain`,
`node.rs`): non-empty, genesis `index == 0` and `prev_hash == "0"`, and every
block (genesis included) passes hash integrity and proof-of-work, with
prev-hash/index links checked from position 1 on. -/
def validate_blockchain (bc : Blockchain) : Bool :=
  match bc.chain with
  | [] => false
  | g :: rest =>
    g.index == 0 && g.prev_hash == "0" &&
      (g.hash == g.calculate_hash && strStartsWith g.hash (zeros g.difficulty)) &&
      validateFrom g rest

/-- Per-peer step of `Node::request_blockchain`: a decoded
`ResponseBlockchain` replaces the running best when it validates and is
strictly longer; anything else (connection failure, decode failure, other
message kinds) is ignored.  The accumulator is `(best_chain, best_len)`. -/
def considerResponse (best : Option Blockchain × Nat) (resp : Option NetworkMessage) :
    Option Blockchain × Nat :=
  match resp with
  | some (NetworkMessage.ResponseBlockchain received) =>
    if validate_blockchain received && received.chain.length > best.2 then
      (some received, received.chain.length)
    else best
  | _ => best

/-- `Node::request_blockchain` (the spec's `sync()`), sequentialized: the
per-peer outcomes are given as a list, `best_len` starts at the local chain
length, and the best strictly-longer valid response (if any) replaces the
local chain at the end. -/
def request_blockchain (loc : Blockchain) (responses : List (Option NetworkMessage)) :
    Blockchain :=
  let best := responses.foldl considerResponse (none, loc.chain.length)
  match best.1 with
  | some nc => nc
  | none => loc

/-- What the inbound dispatcher did with a `NewBlock` message. -/
inductive DispatchAction where
  | appended
  | syncTriggered
  | competingFork
  | rejected
deriving DecidableEq, Repr

/-- The `NewBlock` branch of `handle_connection` (`node.rs`), sequentialized
(the post-write-lock double check sees the same state and is folded in):
a block extending the tail with correct hash and proof-of-work is appended
and the mempool purged; otherwise an index above the tail's spawns
`request_blockchain`, an index equal to the tail's with a different prev-hash
is logged as a competing fork, and anything else is rejected. -/
def handleNewBlock (bc : Blockchain) (pool : List Transaction) (b : Block) :
    Blockchain × List Transaction × DispatchAction :=
  let expected_index := match bc.chain.getLast? with
    | some l => l.index + 1
    | none => 0
  let expected_prev := match bc.chain.getLast? with
    | some l => l.hash
    | none => "0"
  let is_valid := b.index == expected_index && b.prev_hash == expected_prev &&
    b.hash == b.calculate_hash && strStartsWith b.hash (zeros b.difficulty)
  if is_valid then
    let block_tx_hashes := b.transactions.map Transaction.hash
    (⟨bc.chain ++ [b], bc.difficulty⟩,
     pool.filter (fun t => !(block_tx_hashes.contains t.hash)),
     DispatchAction.appended)
  else
    let current_max_index := match bc.chain.getLast? with
      | some l => l.index
      | none => 0
    let current_last_hash := match bc.chain.getLast? with
      | some l => l.hash
      | none => "0"
    if b.index > current_max_index then (bc, pool, DispatchAction.syncTriggered)
    else if b.index == current_max_index && b.prev_hash != current_last_hash then
      (bc, pool, DispatchAction.competingFork)
    else (bc, pool, DispatchAction.rejected)

/-- Result of `Node::mine_block`: the chain and mempool the node is left
with, and the block handed back for broadcast (if any). -/
structure MineOutcome where
  chain : Blockchain
  pool : List Transaction
  mined : Option Block
deriving DecidableEq, Repr

/-- `Node::mine_block` (`node.rs`), sequentialized.  `bc0`/`pool0` are the
chain and mempool at the initial snapshot; the pool is drained there (with the
dummy `system → system : 0` transaction inserted first when it is empty).
`bc1` is the chain observed at the post-mining read lock and `bc2` the chain
observed at the final write lock — passing them separately models the
concurrent window during proof-of-work.  The outer `none` models the mining
loop never terminating. -/
def mine_block (bc0 : Blockchain) (pool0 : List Transaction) (timestamp fuel : Nat)
    (bc1 bc2 : Blockchain) : Option MineOutcome :=
  let index := match bc0.chain.getLast? with
    | some b => b.index + 1
    | none => 0
  let previous_hash := match bc0.chain.getLast? with
    | some b => b.hash
    | none => "0"
  let transactions_to_mine :=
    if pool0.isEmpty then [Transaction.new "system" "system" 0] else pool0
  let cand := Block.new index previous_hash transactions_to_mine bc0.difficulty timestamp
  match cand.mine fuel with
  | none => none
  | some nb =>
    let current_index := match bc1.chain.getLast? with
      | some b => b.index
      | none => 0
    if current_index ≥ index then
      some ⟨bc1, nb.transactions, none⟩
    else
      let expected_index := match bc2.chain.getLast? with
        | some b => b.index + 1
        | none => 0
      let expected_prev := match bc2.chain.getLast? with
        | some b => b.hash
        | none => "0"
      if expected_index == nb.index && expected_prev == nb.prev_hash then
        some ⟨⟨bc2.chain ++ [nb], bc2.difficulty⟩, [], some nb⟩
      else
        some ⟨bc2, nb.transactions, none⟩

/-! ### Length-prefixed framing (`handle_connection` in `node.rs`,
`handle_seed_connection` in `seed.rs`)

Both handlers read a 4-byte big-endian length and then exactly that many
payload bytes.  The inbound stream is a byte function together with the
number of bytes the peer will deliver before closing; `none` models
`read_exact` failing. -/

/-- The declared frame length: `u32::from_be_bytes` of the first four bytes. -/
def frameLen (stream : Nat → Nat) : Nat :=
  stream 0 % 256 * 16777216 + stream 1 % 256 * 65536 +
    stream 2 % 256 * 256 + stream 3 % 256

/-- Read one frame: 4-byte length, then that many payload bytes.  Fails only
when the stream ends early; no ceiling is applied to the declared length. -/
def readFrame (avail : Nat) (stream : Nat → Nat) : Option (Nat × (Nat → Nat)) :=
  if avail < 4 then none
  else
    let len := frameLen stream
    if avail < 4 + len then none
    else some (len, fun i => stream (4 + i) % 256)

/-! ### Definitions taken from the specification's words (for refinement
comparisons only) -/

/-- Spec §3: a transaction's content hash is
`SHA256(from || to || decimal(amount))`, hex-encoded. -/
def content_hash_spec (t : Transaction) : String :=
  sha256hex (t.from_ ++ t.to_ ++ toString t.amount)

/-- Spec §3: the block-hash preimage is the concatenation of `index`,
`timestamp`, `prev_hash`, `nonce`, and the concatenation of each
transaction's content hash; `difficulty` is not included. -/
def block_preimage_spec (b : Block) : String :=
  toString b.index ++ toString b.timestamp ++ b.prev_hash ++ toString b.nonce ++
    String.join (b.transactions.map content_hash_spec)

/-! ### Auxiliary definitions for the claim statements -/

/-- Apply a sequence of `Blockchain::add_block` calls; each operation carries
the transaction list, the timestamp observed at construction, and the fuel
granted to the mining loop. -/
def applyAddBlocks (bc : Blockchain) : List (List Transaction × Nat × Nat) → Option Blockchain
  | [] => some bc
  | op :: rest => (bc.add_block op.1 op.2.1 op.2.2).bind fun bc2 => applyAddBlocks bc2 rest

/-- Index continuity and prev-hash links only (no proof-of-work, no hash
integrity); used to state claim C9's hypotheses. -/
def linksOk : Block → List Block → Bool
  | _, [] => true
  | prev, b :: rest => b.index == prev.index + 1 && b.prev_hash == prev.hash && linksOk b rest

/-- Claim C9's structural hypotheses on a chain, taken from the claim's words:
non-empty, correct genesis fields, correct recomputed hashes everywhere, and
correct index/prev-hash links.  Proof-of-work is deliberately not included. -/
def chainStructOk (bc : Blockchain) : Bool :=
  match bc.chain with
  | [] => false
  | g :: rest =>
    g.index == 0 && g.prev_hash == "0" &&
      (g :: rest).all (fun b => b.hash == b.calculate_hash) && linksOk g rest

/-! ### Concrete data for witnesses and counterexamples

The hex strings below are the SHA-256 digests computed by `sha256hex` on the
corresponding preimages; they are rechecked by the kernel in every witness. -/

/-- The difficulty-0 genesis block with timestamp 0: its hash is
`sha256hex "0000"` (preimage `index ++ timestamp ++ prev_hash ++ nonce`). -/
def gBlock : Block :=
  ⟨0, 0, "0", "9af15b336e6a9619928537df30b2e6a2376569fcf9d7e773eccede65606529a0", 0, 0, []⟩

/-- The difficulty-0 block of index 1 and timestamp 0 on top of `gBlock`,
with no transactions. -/
def b1Block : Block :=
  ⟨1, 0, "9af15b336e6a9619928537df30b2e6a2376569fcf9d7e773eccede65606529a0",
   "05fb4941cdbe1889ce9fa8d9510ae00a702719fbe6170516dcc83a5cd2f57b89", 0, 0, []⟩

/-- A block of index 1 on top of `gBlock` whose hash fields are deliberately
arbitrary (used where validity of the tail is irrelevant). -/
def bAdv : Block :=
  ⟨1, 0, "9af15b336e6a9619928537df30b2e6a2376569fcf9d7e773eccede65606529a0",
   "ffff", 0, 0, []⟩

/-- The mined candidate block `Node::mine_block` produces from an empty
mempool on top of `gBlock`: it contains exactly the dummy
`system → system : 0` transaction. -/
def dummyMined : Block :=
  ⟨1, 0, "9af15b336e6a9619928537df30b2e6a2376569fcf9d7e773eccede65606529a0",
   "08045d3dd9deb2de6a3e493ab33ea0cb9ddebe8637f3a5a01f63e01565f1ec90", 0, 0,
   [Transaction.new "system" "system" 0]⟩

/-- One-block chain holding `gBlock`, difficulty 0. -/
def G0 : Blockchain := ⟨[gBlock], 0⟩

/-- Two-block chain `gBlock`, `b1Block`, difficulty 0. -/
def G1 : Blockchain := ⟨[gBlock, b1Block], 0⟩

/-- Two-block chain whose tail is the arbitrary `bAdv` (a chain that advanced
past index 0 while a miner was working). -/
def GAdv : Blockchain := ⟨[gBlock, bAdv], 0⟩

/-- A byte stream whose first four bytes declare a frame length of
`2^24 + 1 = 16777217`, one byte above a 16 MiB ceiling. -/
def bigStream : Nat → Nat :=
  fun i => if i == 0 then 1 else if i == 3 then 1 else 0

/-- A single peer response carrying the one-block chain `G0`. -/
def RS0 : List (Option NetworkMessage) :=
  [some (NetworkMessage.ResponseBlockchain G0)]

/-- A block whose index is exactly one above `gBlock`'s but whose prev-hash
does not match `gBlock.hash` (a competing-fork block at the next height). -/
def bFork : Block := ⟨1, 0, "deadbeef", "cafe", 0, 0, []⟩

/-! ### General lemmas about the embedded operations -/

/-- The `hash` field is not part of the hash preimage. -/
lemma calculate_hash_set_hash (b : Block) (h : String) :
    Block.calculate_hash { b with hash := h } = Block.calculate_hash b := rfl

/-- `Rust`'s `"0".repeat(0)` is the empty string. -/
lemma zeros_zero : zeros 0 = "" := rfl

/-- The spec's transaction content hash coincides with `Transaction::hash`. -/
lemma content_hash_spec_eq : content_hash_spec = Transaction.hash := rfl

/-- Every string starts with the empty string. -/
lemma startsWith_empty (s : String) : strStartsWith s "" = true := by
  show List.isPrefixOf ([] : List Char) s.data = true
  exact List.isPrefixOf_nil_left

set_option maxHeartbeats 1000000 in
/-- Full characterization of a successful run of the mining loop: all fields
except `nonce` and `hash` are preserved, the final `hash` is the recomputed
hash at the final nonce, it meets the target, and every nonce between the
starting one and the final one fails the target. -/
lemma mineAux_some (target : String) :
    ∀ (fuel : Nat) (b b' : Block), Block.mineAux target fuel b = some b' →
      b'.index = b.index ∧ b'.timestamp = b.timestamp ∧ b'.prev_hash = b.prev_hash ∧
      b'.difficulty = b.difficulty ∧ b'.transactions = b.transactions ∧
      b.nonce ≤ b'.nonce ∧
      b'.hash = Block.calculate_hash { b with nonce := b'.nonce } ∧
      b'.hash = b'.calculate_hash ∧
      strStartsWith b'.hash target = true ∧
      ∀ m, b.nonce ≤ m → m < b'.nonce →
        strStartsWith (Block.calculate_hash { b with nonce := m }) target = false := by
  intro fuel
  induction fuel with
  | zero => intro b b' h; simp [Block.mineAux] at h
  | succ n ih =>
    intro b b' h
    rw [Block.mineAux] at h
    by_cases hc : strStartsWith (Block.calculate_hash b) target = true
    · rw [if_pos hc] at h
      obtain rfl : ({ b with hash := b.calculate_hash } : Block) = b' := by
        exact Option.some_injective _ h
      refine ⟨rfl, rfl, rfl, rfl, rfl, Nat.le_refl _, rfl, rfl, hc, ?_⟩
      intro m h1 h2
      exact absurd (Nat.lt_of_le_of_lt h1 h2) (Nat.lt_irrefl _)
    · rw [if_neg hc] at h
      have hcf : strStartsWith (Block.calculate_hash b) target = false :=
        Bool.eq_false_iff.mpr hc
      obtain ⟨e1, e2, e3, e4, e5, e6, e7, e8, e9, e10⟩ :=
        ih { b with hash := b.calculate_hash, nonce := b.nonce + 1 } b' h
      refine ⟨e1, e2, e3, e4, e5, Nat.le_of_succ_le e6, e7, e8, e9, ?_⟩
      intro m h1 h2
      rcases Nat.eq_or_lt_of_le h1 with h1' | h1'
      · subst h1'
        exact hcf
      · exact e10 m h1' h2

/-! ### Claim theorems -/

/-- Claim C1 (confirmed).  `Block::calculate_hash` is the hex-encoded SHA-256
of the concatenation of the decimal `index`, the decimal `timestamp`,
`prev_hash`, the decimal `nonce`, and the concatenation of the transactions'
content hashes (the preimage pinned by the spec, `block_preimage_spec`); and
the `difficulty` field is not part of the preimage, so two blocks differing
only in `difficulty` have equal hashes. -/
theorem calculate_hash_matches_spec_preimage : ∀ b : Block,
    b.calculate_hash = sha256hex (block_preimage_spec b) ∧
    ∀ d d' : Nat, Block.calculate_hash { b with difficulty := d } =
      Block.calculate_hash { b with difficulty := d' } := by
  intro b
  constructor
  · simp [Block.calculate_hash, block_preimage_spec, content_hash_spec_eq]
  · intro d d'
    rfl

/-- Claim C8 (confirmed).  A successful `Block::mine` run stops at the first
nonce, at or above the starting one, whose recomputed hash begins with
`difficulty` zero characters; it preserves every other field, leaves the block
with `hash` equal to its recomputed hash (so `is_valid_pow` holds), and with
`difficulty = 0` it returns after the very first iteration without touching
the nonce.  Determinism is inherent: the embedding is a pure function of the
block's content and starting nonce. -/
theorem mine_finds_first_valid_nonce :
    (∀ (b : Block) (fuel : Nat) (b' : Block), b.mine fuel = some b' →
      b'.index = b.index ∧ b'.timestamp = b.timestamp ∧ b'.prev_hash = b.prev_hash ∧
      b'.difficulty = b.difficulty ∧ b'.transactions = b.transactions ∧
      b.nonce ≤ b'.nonce ∧
      b'.hash = Block.calculate_hash { b with nonce := b'.nonce } ∧
      b'.is_valid_pow = true ∧
      ∀ m, b.nonce ≤ m → m < b'.nonce →
        strStartsWith (Block.calculate_hash { b with nonce := m }) (zeros b.difficulty) = false) ∧
    (∀ (b : Block) (fuel : Nat), b.difficulty = 0 →
      b.mine (fuel + 1) = some { b with hash := b.calculate_hash }) := by
  constructor
  · intro b fuel b' h
    obtain ⟨e1, e2, e3, e4, e5, e6, e7, e8, e9, e10⟩ :=
      mineAux_some (zeros b.difficulty) fuel b b' h
    refine ⟨e1, e2, e3, e4, e5, e6, e7, ?_, e10⟩
    rw [Block.is_valid_pow, e4]
    rw [← e8] at *
    simp [e9]
  · intro b fuel hd
    have hz : zeros b.difficulty = "" := by rw [hd]; rfl
    rw [Block.mine, hz, Block.mineAux, if_pos (startsWith_empty _)]

/-- Witness for C8: mining the already-solved difficulty-0 block `gBlock`
returns it unchanged, and the theorem yields its proof-of-work validity. -/
theorem mine_finds_first_valid_nonce_witness : gBlock.is_valid_pow = true :=
  (mine_finds_first_valid_nonce.1 gBlock 1 gBlock (by decide)).2.2.2.2.2.2.2.1

/-- `getLast?` of a cons cell, phrased through `getLastD`. -/
lemma getLast?_cons_eq (g : Block) (rest : List Block) :
    (g :: rest).getLast? = some (rest.getLastD g) := by
  induction rest generalizing g with
  | nil => rfl
  | cons x xs ih => rw [List.getLast?_cons_cons, ih, List.getLastD_cons]

/-- Appending one block on the right of the loop of `Blockchain::is_valid`. -/
lemma chainOk_append (l : List Block) (p b : Block) :
    Blockchain.chainOk p (l ++ [b]) =
      (Blockchain.chainOk p l &&
        (b.index == (l.getLastD p).index + 1 && b.prev_hash == (l.getLastD p).hash &&
          b.is_valid_pow)) := by
  induction l generalizing p with
  | nil => simp [Blockchain.chainOk]
  | cons x xs ih =>
    simp only [List.cons_append, Blockchain.chainOk, List.append_eq, ih,
      List.getLastD_cons, Bool.and_assoc]

/-- A valid chain stays valid when a block correctly extending its tail is
appended (for any value of the unread `difficulty` field). -/
lemma is_valid_append (bc : Blockchain) (t b : Block) (d : Nat)
    (hv : bc.is_valid = true) (hlast : bc.chain.getLast? = some t)
    (hi : b.index = t.index + 1) (hp : b.prev_hash = t.hash)
    (hpow : b.is_valid_pow = true) :
    Blockchain.is_valid ⟨bc.chain ++ [b], d⟩ = true := by
  obtain ⟨chain, bcd⟩ := bc
  cases chain with
  | nil => simp [Blockchain.is_valid] at hv
  | cons g rest =>
    have ht : rest.getLastD g = t := by
      rw [getLast?_cons_eq] at hlast
      exact Option.some.inj hlast
    simp only [Blockchain.is_valid, List.cons_append] at hv ⊢
    rw [chainOk_append, ht]
    simp only [Bool.and_eq_true, beq_iff_eq] at hv ⊢
    exact ⟨hv.1, hv.2, ⟨hi, hp⟩, hpow⟩

/-- A successful `Blockchain::add_block` preserves full-chain validity. -/
lemma add_block_some (bc bc' : Blockchain) (txs : List Transaction) (ts fuel : Nat)
    (hv : bc.is_valid = true) (h : bc.add_block txs ts fuel = some bc') :
    bc'.is_valid = true := by
  obtain ⟨chain, bcd⟩ := bc
  cases chain with
  | nil => simp [Blockchain.is_valid] at hv
  | cons g rest =>
    simp only [Blockchain.add_block, Blockchain.last_block, getLast?_cons_eq] at h
    obtain ⟨nb, hmine, rfl⟩ := Option.map_eq_some'.mp h
    rw [Block.mine] at hmine
    obtain ⟨e1, e2, e3, e4, e5, e6, e7, e8, e9, e10⟩ := mineAux_some _ _ _ _ hmine
    have hpow : nb.is_valid_pow = true := by
      rw [Block.is_valid_pow, e4]
      rw [← e8] at *
      simp only [beq_self_eq_true, Bool.true_and]
      exact e9
    exact is_valid_append ⟨g :: rest, bcd⟩ (rest.getLastD g) nb bcd hv
      (getLast?_cons_eq g rest) e1 e3 hpow

/-- `Blockchain::new` produces a valid chain whenever genesis mining ends. -/
lemma new_some_valid (d ts fuel : Nat) (bc : Blockchain)
    (h : Blockchain.new d ts fuel = some bc) : bc.is_valid = true := by
  rw [Blockchain.new, Block.genesis] at h
  obtain ⟨g, hg, rfl⟩ := Option.map_eq_some'.mp h
  rw [Block.mine] at hg
  obtain ⟨e1, e2, e3, e4, e5, e6, e7, e8, e9, e10⟩ := mineAux_some _ _ _ _ hg
  have hpow : g.is_valid_pow = true := by
    rw [Block.is_valid_pow, e4]
    rw [← e8] at *
    simp [e9]
  simp [Blockchain.is_valid, Blockchain.chainOk, e1, e3, hpow, Block.new]

/-- Any sequence of successful `add_block` calls preserves validity. -/
lemma applyAddBlocks_valid :
    ∀ (ops : List (List Transaction × Nat × Nat)) (bc0 bc : Blockchain),
      bc0.is_valid = true → applyAddBlocks bc0 ops = some bc → bc.is_valid = true := by
  intro ops
  induction ops with
  | nil =>
    intro bc0 bc hv h
    rw [applyAddBlocks] at h
    obtain rfl := Option.some.inj h
    exact hv
  | cons op rest ih =>
    intro bc0 bc hv h
    rw [applyAddBlocks] at h
    obtain ⟨bc1, h1, h2⟩ := Option.bind_eq_some.mp h
    exact ih bc1 bc (add_block_some bc0 bc1 op.1 op.2.1 op.2.2 hv h1) h2

/-- Claim C6 (confirmed).  Whenever `Blockchain::new(d)` terminates and every
subsequent `Blockchain::add_block` call terminates (arbitrary transaction
lists, timestamps and fuels), the resulting chain satisfies `is_valid`:
non-empty, genesis fields correct, every block hash-consistent with valid
proof-of-work, and consecutive blocks correctly linked — these are exactly
the checks folded into `Blockchain.is_valid`. -/
theorem add_block_sequences_valid :
    ∀ (d ts fuel : Nat) (ops : List (List Transaction × Nat × Nat)) (bc0 bc : Blockchain),
      Blockchain.new d ts fuel = some bc0 →
      applyAddBlocks bc0 ops = some bc →
      bc.is_valid = true := by
  intro d ts fuel ops bc0 bc h0 h
  exact applyAddBlocks_valid ops bc0 bc (new_some_valid d ts fuel bc0 h0) h

/-- Witness for C6: with difficulty 0 the genesis mines at once, one
`add_block` call succeeds, and the resulting two-block chain is valid. -/
theorem add_block_sequences_valid_witness :
    Blockchain.new 0 0 1 = some G0 ∧ applyAddBlocks G0 [([], 0, 1)] = some G1 ∧
      G1.is_valid = true :=
  ⟨by decide, by decide,
    add_block_sequences_valid 0 0 1 [([], 0, 1)] G0 G1 (by decide) (by decide)⟩

/-- One step of the best-chain selection: either the accumulator is kept (and
a valid `ResponseBlockchain` kept out is no longer than the running best), or
the response is a valid, strictly longer chain that becomes the new best. -/
lemma considerResponse_cases (best : Option Blockchain × Nat) (r : Option NetworkMessage) :
    (considerResponse best r = best ∧
      ∀ c, r = some (NetworkMessage.ResponseBlockchain c) → validate_blockchain c = true →
        c.chain.length ≤ best.2) ∨
    (∃ c, r = some (NetworkMessage.ResponseBlockchain c) ∧ validate_blockchain c = true ∧
      best.2 < c.chain.length ∧ considerResponse best r = (some c, c.chain.length)) := by
  cases r with
  | none => exact Or.inl ⟨rfl, by simp⟩
  | some msg =>
    cases msg with
    | NewBlock b => exact Or.inl ⟨rfl, by simp⟩
    | NewTransaction t => exact Or.inl ⟨rfl, by simp⟩
    | RequestBlockchain => exact Or.inl ⟨rfl, by simp⟩
    | ResponseBlockchain received =>
      by_cases hv : validate_blockchain received = true
      · by_cases hl : best.2 < received.chain.length
        · exact Or.inr ⟨received, rfl, hv, hl, by simp [considerResponse, hv, hl]⟩
        · refine Or.inl ⟨by simp [considerResponse, hv, hl], ?_⟩
          intro c hc hcv
          obtain rfl : received = c :=
            NetworkMessage.ResponseBlockchain.inj (Option.some.inj hc)
          omega
      · refine Or.inl ⟨by simp [considerResponse, hv], ?_⟩
        intro c hc hcv
        obtain rfl : received = c :=
          NetworkMessage.ResponseBlockchain.inj (Option.some.inj hc)
        exact absurd hcv hv

/-- Invariant of the whole best-chain fold of `Node::request_blockchain`:
the best length never decreases, the final best is either untouched or a
valid strictly-longer received chain, and no valid received chain is longer
than the final best length. -/
lemma considerResponse_fold (rs : List (Option NetworkMessage)) :
    ∀ (b0 : Option Blockchain) (n0 : Nat),
      n0 ≤ (rs.foldl considerResponse (b0, n0)).2 ∧
      (rs.foldl considerResponse (b0, n0) = (b0, n0) ∨
        ∃ c, (rs.foldl considerResponse (b0, n0)).1 = some c ∧
          validate_blockchain c = true ∧
          c.chain.length = (rs.foldl considerResponse (b0, n0)).2 ∧
          n0 < c.chain.length ∧
          some (NetworkMessage.ResponseBlockchain c) ∈ rs) ∧
      ∀ c, some (NetworkMessage.ResponseBlockchain c) ∈ rs →
        validate_blockchain c = true →
        c.chain.length ≤ (rs.foldl considerResponse (b0, n0)).2 := by
  induction rs with
  | nil => intro b0 n0; simp
  | cons r rs ih =>
    intro b0 n0
    rw [List.foldl_cons]
    rcases considerResponse_cases (b0, n0) r with ⟨heq, hsmall⟩ | ⟨c0, hr, hcv, hlt, heq⟩
    · rw [heq]
      obtain ⟨i1, i2, i3⟩ := ih b0 n0
      refine ⟨i1, ?_, ?_⟩
      · rcases i2 with h | ⟨c, h1, h2, h3, h4, h5⟩
        · exact Or.inl h
        · exact Or.inr ⟨c, h1, h2, h3, h4, List.mem_cons_of_mem _ h5⟩
      · intro c hmem hv
        rcases List.mem_cons.mp hmem with hh | ht
        · exact le_trans (hsmall c hh.symm hv) i1
        · exact i3 c ht hv
    · rw [heq]
      obtain ⟨i1, i2, i3⟩ := ih (some c0) c0.chain.length
      subst hr
      refine ⟨le_trans (le_of_lt hlt) i1, ?_, ?_⟩
      · rcases i2 with h | ⟨c, h1, h2, h3, h4, h5⟩
        · refine Or.inr ⟨c0, ?_, hcv, ?_, hlt, List.mem_cons_self _ _⟩
          · rw [h]
          · rw [h]
        · exact Or.inr ⟨c, h1, h2, h3, lt_trans hlt h4, List.mem_cons_of_mem _ h5⟩
      · intro c hmem hv
        rcases List.mem_cons.mp hmem with hh | ht
        · obtain rfl : c0 = c :=
            NetworkMessage.ResponseBlockchain.inj (Option.some.inj hh.symm)
          exact i1
        · exact i3 c ht hv

/-- Claim C3 (confirmed).  `Node::request_blockchain` (the spec's `sync()`)
never shortens the local chain; either it leaves the local chain untouched —
which is guaranteed whenever no received chain both validates and is strictly
longer — or it installs a received chain that validates, is strictly longer
than the local one, and is at least as long as every valid received chain. -/
theorem sync_monotone_longest :
    ∀ (loc : Blockchain) (rs : List (Option NetworkMessage)),
      loc.chain.length ≤ (request_blockchain loc rs).chain.length ∧
      ((request_blockchain loc rs = loc ∧
          ∀ c, some (NetworkMessage.ResponseBlockchain c) ∈ rs →
            validate_blockchain c = true → c.chain.length ≤ loc.chain.length) ∨
        (validate_blockchain (request_blockchain loc rs) = true ∧
          loc.chain.length < (request_blockchain loc rs).chain.length ∧
          some (NetworkMessage.ResponseBlockchain (request_blockchain loc rs)) ∈ rs ∧
          ∀ c, some (NetworkMessage.ResponseBlockchain c) ∈ rs →
            validate_blockchain c = true →
            c.chain.length ≤ (request_blockchain loc rs).chain.length)) := by
  intro loc rs
  obtain ⟨i1, i2, i3⟩ := considerResponse_fold rs none loc.chain.length
  rcases i2 with hpair | ⟨c, h1, h2, h3, h4, h5⟩
  · have hres : request_blockchain loc rs = loc := by
      simp only [request_blockchain, hpair]
    rw [hres]
    refine ⟨le_refl _, Or.inl ⟨rfl, ?_⟩⟩
    intro c hm hv
    have := i3 c hm hv
    rw [hpair] at this
    exact this
  · have hres : request_blockchain loc rs = c := by
      simp only [request_blockchain, h1]
    rw [hres]
    refine ⟨le_of_lt h4, Or.inr ⟨h2, h4, h5, ?_⟩⟩
    intro c' hm hv
    rw [← h3] at i3
    exact i3 c' hm hv

/-- Witness for C3: an empty local chain adopts a valid one-block chain
offered by a peer, and the length can only have grown. -/
theorem sync_monotone_longest_witness :
    (Blockchain.empty 0).chain.length ≤
      (request_blockchain (Blockchain.empty 0) RS0).chain.length ∧
    request_blockchain (Blockchain.empty 0) RS0 = G0 :=
  ⟨(sync_monotone_longest (Blockchain.empty 0) RS0).1, by decide⟩

/-- Counterexample to claim C4 as stated: an inbound block whose index is
exactly the tail's index + 1 but whose prev-hash mismatches DOES trigger a
background sync (the code syncs whenever validation fails and the index
exceeds the tail's index, which includes this case). -/
theorem dispatcher_gap_sync_cex :
    bFork.index = gBlock.index + 1 ∧ bFork.prev_hash ≠ gBlock.hash ∧
    (handleNewBlock G0 [] bFork).2.2 = DispatchAction.syncTriggered := by decide

/-- Claim C4 (corrected).  When an inbound `NewBlock` has index equal to the
tail's index + 1 but a mismatching prev-hash, the dispatcher leaves the chain
and pool untouched and triggers a background sync (not merely a log); in
general the sync is triggered exactly when the block fails validation and its
index is strictly above the tail's index. -/
theorem dispatcher_sync_on_next_index_mismatch :
    ∀ (bc : Blockchain) (pool : List Transaction) (b t : Block),
      bc.chain.getLast? = some t →
      (b.index = t.index + 1 → b.prev_hash ≠ t.hash →
        handleNewBlock bc pool b = (bc, pool, DispatchAction.syncTriggered)) ∧
      ((handleNewBlock bc pool b).2.2 = DispatchAction.syncTriggered ↔
        (b.index == t.index + 1 && b.prev_hash == t.hash && b.hash == b.calculate_hash &&
          strStartsWith b.hash (zeros b.difficulty)) = false ∧ t.index < b.index) := by
  intro bc pool b t hlast
  constructor
  · intro hi hp
    have hpb : (b.prev_hash == t.hash) = false := by
      simp only [beq_eq_false_iff_ne, ne_eq]
      exact hp
    simp only [handleNewBlock, hlast]
    rw [hi]
    simp [hpb]
  · simp only [handleNewBlock, hlast]
    split_ifs with h1 h2 h3
    · simp [h1]
    · simp only [Bool.not_eq_true] at h1
      simp [h1, h2]
    · simp only [Bool.not_eq_true] at h1
      constructor
      · intro habs
        exact habs.elim
      · rintro ⟨-, hlt⟩
        exact absurd hlt h2
    · simp only [Bool.not_eq_true] at h1
      constructor
      · intro habs
        exact habs.elim
      · rintro ⟨-, hlt⟩
        exact absurd hlt h2

/-- Witness for C4: on the concrete one-block chain `G0`, the concrete
next-height fork block `bFork` leaves the state unchanged and triggers sync. -/
theorem dispatcher_sync_on_next_index_mismatch_witness :
    handleNewBlock G0 [] bFork = (G0, [], DispatchAction.syncTriggered) :=
  (dispatcher_sync_on_next_index_mismatch G0 [] bFork gBlock (by decide)).1
    (by decide) (by decide)

/-- Counterexample to claim C5 as stated: a frame whose declared length is
`2^24 + 1` bytes (above a 16 MiB ceiling) is accepted whenever the stream
delivers that many bytes — no ceiling check exists in either handler. -/
theorem frame_ceiling_cex :
    16777216 < frameLen bigStream ∧
    (readFrame (4 + frameLen bigStream) bigStream).isSome = true := by decide

/-- Claim C5 (corrected).  The handlers in `node.rs` and `seed.rs` enforce no
ceiling on the declared frame length: a frame is read successfully exactly
when the stream delivers the 4 length bytes plus the declared number of
payload bytes, for any declared length up to `u32::MAX`. -/
theorem readFrame_no_ceiling :
    ∀ (avail : Nat) (stream : Nat → Nat),
      (readFrame avail stream).isSome = true ↔
        4 ≤ avail ∧ 4 + frameLen stream ≤ avail := by
  intro avail stream
  simp only [readFrame]
  split_ifs with h1 h2 <;> simp <;> omega

/-- Per-block step for claim C9: links plus hash integrity plus an all-zero
difficulty imply both validators' per-block checks. -/
lemma struct_valid_zero_diff :
    ∀ (rest : List Block) (prev : Block),
      (∀ x ∈ rest, x.difficulty = 0) → (∀ x ∈ rest, x.hash = x.calculate_hash) →
      linksOk prev rest = true →
      Blockchain.chainOk prev rest = true ∧ validateFrom prev rest = true := by
  intro rest
  induction rest with
  | nil => intro prev _ _ _; exact ⟨rfl, rfl⟩
  | cons x xs ih =>
    intro prev hd hi hl
    rw [linksOk] at hl
    simp only [Bool.and_eq_true] at hl
    have hx0 : x.difficulty = 0 := hd x (List.mem_cons_self _ _)
    have hxi : x.hash = x.calculate_hash := hi x (List.mem_cons_self _ _)
    have hpow : x.is_valid_pow = true := by
      rw [Block.is_valid_pow, hx0, zeros_zero]
      simp [← hxi, startsWith_empty]
    obtain ⟨c1, c2⟩ := ih x (fun y hy => hd y (List.mem_cons_of_mem _ hy))
      (fun y hy => hi y (List.mem_cons_of_mem _ hy)) hl.2
    constructor
    · rw [Blockchain.chainOk]
      simp [hl.1.1, hl.1.2, hpow, c1]
    · rw [validateFrom]
      simp [← hxi, hx0, zeros_zero, startsWith_empty, hl.1.1, hl.1.2, c2]

/-- Claim C9 (confirmed).  Both full-chain validators check proof-of-work
against each block's own `difficulty` field: a chain of all-difficulty-0
blocks with correct genesis fields, correct recomputed hashes and correct
links passes `Blockchain::is_valid` and the node-side `validate_blockchain`
regardless of the chain's own `difficulty` parameter. -/
theorem validation_uses_block_difficulty :
    ∀ (bc : Blockchain) (d' : Nat),
      bc.chain.all (fun b => b.difficulty == 0) = true →
      chainStructOk bc = true →
      Blockchain.is_valid ⟨bc.chain, d'⟩ = true ∧
        validate_blockchain ⟨bc.chain, d'⟩ = true := by
  intro bc d' hall hstruct
  obtain ⟨chain, d⟩ := bc
  cases chain with
  | nil => simp [chainStructOk] at hstruct
  | cons g rest =>
    rw [chainStructOk] at hstruct
    simp only [List.all_cons, List.all_eq_true, Bool.and_eq_true, beq_iff_eq] at hstruct hall
    obtain ⟨⟨⟨hgi, hgp⟩, hinteg⟩, hlinks⟩ := hstruct
    have hg0 : g.difficulty = 0 := hall.1
    have hgint : g.hash = g.calculate_hash := hinteg.1
    have hgpow : g.is_valid_pow = true := by
      rw [Block.is_valid_pow, hg0, zeros_zero]
      simp [← hgint, startsWith_empty]
    obtain ⟨c1, c2⟩ := struct_valid_zero_diff rest g
      (fun y hy => hall.2 y hy) (fun y hy => hinteg.2 y hy) hlinks
    constructor
    · rw [Blockchain.is_valid]
      simp [hgi, hgp, hgpow, c1]
    · rw [validate_blockchain]
      simp [hgi, hgp, ← hgint, hg0, zeros_zero, startsWith_empty, c2]

/-- Witness for C9: the all-difficulty-0 one-block chain passes both
validators even when the chain's `difficulty` parameter is 99. -/
theorem validation_uses_block_difficulty_witness :
    Blockchain.is_valid ⟨G0.chain, 99⟩ = true ∧
      validate_blockchain ⟨G0.chain, 99⟩ = true :=
  validation_uses_block_difficulty G0 99 (by decide) (by decide)

/-- Claim C10 (confirmed).  On the empty chain, `is_valid_new_block` accepts
exactly the blocks with index 0, prev-hash `"0"` and valid proof-of-work, and
`add_mined_block` appends such a block (and only such a block), returning
`true` exactly then. -/
theorem empty_chain_accepts_exactly_genesis_shaped :
    ∀ (d : Nat) (b : Block),
      Blockchain.is_valid_new_block (Blockchain.empty d) b =
        (b.index == 0 && b.prev_hash == "0" && b.is_valid_pow) ∧
      (Blockchain.add_mined_block (Blockchain.empty d) b = (⟨[b], d⟩, true) ↔
        b.index = 0 ∧ b.prev_hash = "0" ∧ b.is_valid_pow = true) ∧
      (¬(b.index = 0 ∧ b.prev_hash = "0" ∧ b.is_valid_pow = true) →
        Blockchain.add_mined_block (Blockchain.empty d) b = (Blockchain.empty d, false)) := by
  intro d b
  have h1 : Blockchain.is_valid_new_block (Blockchain.empty d) b =
      (b.index == 0 && b.prev_hash == "0" && b.is_valid_pow) := rfl
  refine ⟨h1, ?_, ?_⟩
  · rw [Blockchain.add_mined_block, h1]
    by_cases hb : (b.index == 0 && b.prev_hash == "0" && b.is_valid_pow) = true
    · rw [if_pos hb]
      simp only [Bool.and_eq_true, beq_iff_eq] at hb
      simp [hb.1.1, hb.1.2, hb.2, Blockchain.empty]
    · rw [if_neg hb]
      constructor
      · intro habs
        exact absurd (congrArg Prod.snd habs) (by simp)
      · intro hcond
        have hcb : (b.index == 0 && b.prev_hash == "0" && b.is_valid_pow) = true := by
          simp only [Bool.and_eq_true, beq_iff_eq]
          exact ⟨⟨hcond.1, hcond.2.1⟩, hcond.2.2⟩
        exact absurd hcb hb
  · intro hn
    rw [Blockchain.add_mined_block, h1, if_neg]
    intro habs
    simp only [Bool.and_eq_true, beq_iff_eq] at habs
    exact hn ⟨habs.1.1, habs.1.2, habs.2⟩

/-- Witness for C10: the genesis-shaped `gBlock` is appended to the empty
chain with result `true`. -/
theorem empty_chain_accepts_exactly_genesis_shaped_witness :
    Blockchain.add_mined_block (Blockchain.empty 0) gBlock = (⟨[gBlock], 0⟩, true) :=
  ((empty_chain_accepts_exactly_genesis_shaped 0 gBlock).2.1).mpr (by decide)

/-- Claim C2 (code bug).  Evaluating `Node::mine_block` on an empty mempool:
the mined block contains exactly the dummy `system → system : 0` transaction
and no coinbase transaction at all — no reward of 50 is paid to any miner
address (the function does not even take one), contradicting the spec, the
CLI's `--miner` option, and `main.rs`'s call `node.mine(&miner_addr)`. -/
theorem mine_block_no_coinbase :
    mine_block G0 [] 0 1 G0 G0 =
      some ⟨⟨[gBlock, dummyMined], 0⟩, [], some dummyMined⟩ ∧
    dummyMined.transactions = [Transaction.new "system" "system" 0] ∧
    dummyMined.transactions.all (fun t => t.from_ != "coinbase") = true := by decide

/-- Claim C7 (code bug).  Evaluating the abort path of `Node::mine_block`
when the tail advanced during proof-of-work: the mine returns nothing and
leaves the chain unchanged, but it pushes ALL of the candidate block's
transactions back into the mempool — a pending coinbase transaction included
— discarding nothing, where the claim (and spec) say the coinbase is
discarded and only non-coinbase transactions are returned. -/
theorem mine_block_abort_returns_all :
    mine_block G0 [Transaction.coinbase "miner" 50] 0 1 GAdv GAdv =
      some ⟨GAdv, [Transaction.coinbase "miner" 50], none⟩ := by decide

/-- Sanity check of the SHA-256 implementation against the official FIPS
test vector for the message `"abc"`. -/
lemma sha256hex_test_vector :
    sha256hex "abc" =
      "ba7816bf8f01cfea414140de5dae2223b00361a396177a9cb410ff61f20015ad" := by decide

end PowChain
